import Mathlib

/-!
Shallow embedding of `src/src/lib.rs` (crate `bloom_filter`): a packed bit
array (`BitSet`) and a bloom filter (`BloomFilter<T, F, H>`) built on it.

Panics of the Rust code (out-of-range `Vec` indexing inside `BitSet::get` /
`BitSet::set`, and the `% F` remainder when `F = 0`) are modelled by `Option`:
`none` is a panic. Bytes are `Nat`s; all byte values produced stay below 256
because every write xors a bit position below 8, so `Nat` arithmetic agrees
with `u8` arithmetic. A hasher (`RandomState`) is modelled as an arbitrary
function from items to its `u64` output, reduced modulo `2 ^ 64`; the
`as usize` cast is the identity on a 64-bit target.
-/

namespace BloomSpec

/-- Mirrors `struct BitSet { bits: Vec<u8> }`: bytes, least significant bit
first inside each byte. The `len` field of the source is commented out and is
not part of the runtime state. -/
structure BitSet where
  bits : List Nat
deriving DecidableEq, Repr

/-- `BitSet::new(len)`: `vec![0u8; (len.saturating_sub(1) / 8) + 1]`.
`Nat` subtraction saturates at zero exactly like `usize::saturating_sub`. -/
def BitSet.new (len : Nat) : BitSet :=
  ⟨List.replicate ((len - 1) / 8 + 1) 0⟩

/-- `BitSet::get(bit)`: `byte_idx = bit / 8`, `bit_idx = bit % 8`, result
`(self.bits[byte_idx] >> bit_idx) & 1 == 1`; the `Vec` indexing panics
(`none`) when `byte_idx` is out of range. No other bounds check exists
(the `assert!` in the source is commented out). -/
def BitSet.get (bs : BitSet) (bit : Nat) : Option Bool :=
  match bs.bits[bit / 8]? with
  | none => none
  | some byte => some (((byte >>> (bit % 8)) &&& 1) == 1)

/-- `BitSet::set(bit, val)`: reads `self.bits[byte_idx]` (panicking when out
of range) and xors in `1 << bit_idx` exactly when the stored bit differs from
`val as u8`. -/
def BitSet.set (bs : BitSet) (bit : Nat) (val : Bool) : Option BitSet :=
  match bs.bits[bit / 8]? with
  | none => none
  | some byte =>
    if ((byte >>> (bit % 8)) &&& 1) ≠ (if val then 1 else 0) then
      some ⟨bs.bits.set (bit / 8) (byte ^^^ (1 <<< (bit % 8)))⟩
    else
      some bs

/-- `BloomFilter<T, F, H>`: `H` hashers (here `H = hashers.length`) and one
`BitSet`. The `PhantomData` marker has no runtime content. -/
structure BloomFilter (α : Type) (F : Nat) where
  hashers : List (α → Nat)
  filter : BitSet

/-- The value of `rs.hash_one(item)` is a `u64`; an abstract hasher is an
arbitrary `Nat`-valued function reduced modulo `2 ^ 64`. -/
def u64val (n : Nat) : Nat := n % 18446744073709551616

variable {α : Type} {F : Nat}

/-- The bit index `rs.hash_one(item) as usize % F` computed by `insert` and
`contains`. Only quoted under the hypothesis `F ≠ 0`; in Rust `% 0` panics,
which the operations below model explicitly. -/
def hashIndex (F : Nat) (h : α → Nat) (item : α) : Nat :=
  u64val (h item) % F

/-- The `for_each` loop of `BloomFilter::insert`: for each hasher in order,
set bit `hash % F`. The remainder panics when `F = 0` (only reached when at
least one hasher exists, matching the lazy iterator), and `BitSet::set` may
panic. -/
def insertHashes (F : Nat) (item : α) : List (α → Nat) → BitSet → Option BitSet
  | [], bs => some bs
  | h :: rest, bs =>
    if F = 0 then none
    else
      match bs.set (hashIndex F h item) true with
      | none => none
      | some bs' => insertHashes F item rest bs'

/-- The `all` loop of `BloomFilter::contains`: true iff every hasher's bit is
set; short-circuits at the first unset bit, like `Iterator::all`. -/
def containsHashes (F : Nat) (item : α) : List (α → Nat) → BitSet → Option Bool
  | [], _ => some true
  | h :: rest, bs =>
    if F = 0 then none
    else
      match bs.get (hashIndex F h item) with
      | none => none
      | some b => if b then containsHashes F item rest bs else some false

/-- `BloomFilter::new()`: a fresh `BitSet::new(F)` together with the `H`
hashers drawn at construction time; the hashers are a parameter because
`RandomState::new()` seeds them randomly. -/
def BloomFilter.new (α : Type) (F : Nat) (hashers : List (α → Nat)) :
    BloomFilter α F :=
  ⟨hashers, BitSet.new F⟩

/-- `BloomFilter::insert(item)`: runs the loop; `()` in Rust, so the result is
just the updated filter (or `none` on panic). The hashers are untouched. -/
def BloomFilter.insert (bf : BloomFilter α F) (item : α) :
    Option (BloomFilter α F) :=
  match insertHashes F item bf.hashers bf.filter with
  | none => none
  | some bs => some ⟨bf.hashers, bs⟩

/-- `BloomFilter::contains(item)`. -/
def BloomFilter.contains (bf : BloomFilter α F) (item : α) : Option Bool :=
  containsHashes F item bf.hashers bf.filter

/-- A finite sequence of `insert` calls, panic-propagating. -/
def insertAll (bf : BloomFilter α F) : List α → Option (BloomFilter α F)
  | [] => some bf
  | x :: xs =>
    match bf.insert x with
    | none => none
    | some bf' => insertAll bf' xs

/-- The identity hasher on `Nat`, used for concrete witnesses. -/
def hId : Nat → Nat := fun n => n

/-! ### Lemmas about `BitSet` -/

theorem shiftRight_and_one (b k : Nat) :
    (b >>> k) &&& 1 = if b.testBit k then 1 else 0 := by
  rw [Nat.and_one_is_mod, Nat.testBit_to_div_mod, Nat.shiftRight_eq_div_pow]
  rcases Nat.mod_two_eq_zero_or_one (b / 2 ^ k) with h | h <;> simp [h]

theorem getBitEq (b k : Nat) : (((b >>> k) &&& 1) == 1) = b.testBit k := by
  rw [shiftRight_and_one]
  cases b.testBit k <;> simp

theorem testBit_xor_shift_self (byte k : Nat) :
    (byte ^^^ (1 <<< k)).testBit k = !byte.testBit k := by
  rw [Nat.shiftLeft_eq, one_mul, Nat.testBit_xor, Nat.testBit_two_pow_self]
  cases byte.testBit k <;> rfl

theorem testBit_xor_shift_ne (byte k j : Nat) (h : j ≠ k) :
    (byte ^^^ (1 <<< k)).testBit j = byte.testBit j := by
  rw [Nat.shiftLeft_eq, one_mul, Nat.testBit_xor,
    Nat.testBit_two_pow_of_ne (Ne.symm h)]
  cases byte.testBit j <;> rfl

theorem BitSet.get_eq_testBit (bs : BitSet) (i : Nat) :
    bs.get i = (bs.bits[i / 8]?).map (fun byte => byte.testBit (i % 8)) := by
  unfold BitSet.get
  cases bs.bits[i / 8]? with
  | none => rfl
  | some byte => exact congrArg some (getBitEq byte (i % 8))

theorem BitSet.set_eq (bs : BitSet) (i : Nat) (v : Bool) :
    bs.set i v = (bs.bits[i / 8]?).map (fun byte =>
      if byte.testBit (i % 8) = v then bs
      else ⟨bs.bits.set (i / 8) (byte ^^^ (1 <<< (i % 8)))⟩) := by
  unfold BitSet.set
  cases bs.bits[i / 8]? with
  | none => rfl
  | some byte =>
    have hcnd : (((byte >>> (i % 8)) &&& 1) ≠ (if v then 1 else 0)) ↔
        ¬(byte.testBit (i % 8) = v) := by
      rw [shiftRight_and_one]
      cases v <;> cases byte.testBit (i % 8) <;> simp
    rw [Option.map_some']
    show (if ((byte >>> (i % 8)) &&& 1) ≠ (if v then 1 else 0) then
          some (BitSet.mk (bs.bits.set (i / 8) (byte ^^^ (1 <<< (i % 8)))))
        else some bs) =
      some (if byte.testBit (i % 8) = v then bs
        else ⟨bs.bits.set (i / 8) (byte ^^^ (1 <<< (i % 8)))⟩)
    by_cases hc : byte.testBit (i % 8) = v
    · rw [if_neg (fun hC => (hcnd.mp hC) hc), if_pos hc]
    · rw [if_pos (hcnd.mpr hc), if_neg hc]

theorem BitSet.get_eq_none_iff (bs : BitSet) (i : Nat) :
    bs.get i = none ↔ bs.bits.length ≤ i / 8 := by
  rw [BitSet.get_eq_testBit, ← List.getElem?_eq_none_iff]
  cases bs.bits[i / 8]? <;> simp

theorem BitSet.set_eq_none_iff (bs : BitSet) (i : Nat) (v : Bool) :
    bs.set i v = none ↔ bs.bits.length ≤ i / 8 := by
  rw [BitSet.set_eq, ← List.getElem?_eq_none_iff]
  cases bs.bits[i / 8]? <;> simp

theorem BitSet.length_of_set (bs bs' : BitSet) (i : Nat) (v : Bool)
    (h : bs.set i v = some bs') : bs'.bits.length = bs.bits.length := by
  rw [BitSet.set_eq] at h
  cases hb : bs.bits[i / 8]? with
  | none => rw [hb] at h; simp at h
  | some byte =>
    rw [hb, Option.map_some'] at h
    by_cases hc : byte.testBit (i % 8) = v
    · rw [if_pos hc] at h
      cases h
      rfl
    · rw [if_neg hc] at h
      cases h
      simp

theorem BitSet.get_set_self (bs bs' : BitSet) (i : Nat) (v : Bool)
    (h : bs.set i v = some bs') : bs'.get i = some v := by
  rw [BitSet.set_eq] at h
  cases hb : bs.bits[i / 8]? with
  | none => rw [hb] at h; simp at h
  | some byte =>
    have hlt : i / 8 < bs.bits.length := (List.getElem?_eq_some.mp hb).1
    rw [hb, Option.map_some'] at h
    by_cases hc : byte.testBit (i % 8) = v
    · rw [if_pos hc] at h
      cases h
      rw [BitSet.get_eq_testBit, hb, Option.map_some', hc]
    · rw [if_neg hc] at h
      cases h
      rw [BitSet.get_eq_testBit]
      rw [List.getElem?_set_self hlt, Option.map_some', testBit_xor_shift_self]
      cases v <;> simp_all

theorem BitSet.get_set_ne (bs bs' : BitSet) (i j : Nat) (v : Bool)
    (h : bs.set i v = some bs') (hne : j ≠ i) : bs'.get j = bs.get j := by
  rw [BitSet.set_eq] at h
  cases hb : bs.bits[i / 8]? with
  | none => rw [hb] at h; simp at h
  | some byte =>
    have hlt : i / 8 < bs.bits.length := (List.getElem?_eq_some.mp hb).1
    rw [hb, Option.map_some'] at h
    by_cases hc : byte.testBit (i % 8) = v
    · rw [if_pos hc] at h
      cases h
      rfl
    · rw [if_neg hc] at h
      cases h
      rw [BitSet.get_eq_testBit, BitSet.get_eq_testBit]
      by_cases hd : j / 8 = i / 8
      · rw [hd, List.getElem?_set_self hlt, hb, Option.map_some',
          Option.map_some']
        have hmod : j % 8 ≠ i % 8 := by
          intro hm
          apply hne
          omega
        rw [testBit_xor_shift_ne _ _ _ hmod]
      · rw [List.getElem?_set_ne (fun he => hd he.symm)]

theorem BitSet.get_true_of_set_true (bs bs' : BitSet) (i j : Nat)
    (h : bs.set i true = some bs') (hj : bs.get j = some true) :
    bs'.get j = some true := by
  by_cases hji : j = i
  · subst hji
    exact BitSet.get_set_self bs bs' j true h
  · rw [BitSet.get_set_ne bs bs' i j true h hji]
    exact hj

theorem BitSet.set_true_of_get_true (bs : BitSet) (i : Nat)
    (h : bs.get i = some true) : bs.set i true = some bs := by
  rw [BitSet.get_eq_testBit] at h
  rw [BitSet.set_eq]
  cases hb : bs.bits[i / 8]? with
  | none => rw [hb] at h; simp at h
  | some byte =>
    rw [hb] at h
    simp only [Option.map_some', Option.some.injEq] at h
    rw [Option.map_some', if_pos h]

theorem BitSet.length_new (len : Nat) :
    (BitSet.new len).bits.length = (len - 1) / 8 + 1 := by
  simp [BitSet.new]

theorem BitSet.get_new (len i : Nat) :
    (BitSet.new len).get i =
      if i / 8 < (len - 1) / 8 + 1 then some false else none := by
  rw [BitSet.get_eq_testBit]
  simp only [BitSet.new, List.getElem?_replicate]
  split
  · simp [Nat.zero_testBit]
  · rfl

/-! ### Lemmas about the insertion and membership loops -/

theorem hashIndex_lt (hF : F ≠ 0) (h : α → Nat) (item : α) :
    hashIndex F h item < F :=
  Nat.mod_lt _ (Nat.pos_of_ne_zero hF)

theorem hashIndex_div_lt (hF : F ≠ 0) (h : α → Nat) (item : α) (bs : BitSet)
    (hlen : (F - 1) / 8 < bs.bits.length) :
    hashIndex F h item / 8 < bs.bits.length := by
  have h1 : hashIndex F h item ≤ F - 1 := by
    have := hashIndex_lt hF h item
    omega
  exact Nat.lt_of_le_of_lt (Nat.div_le_div_right h1) hlen

theorem insertHashes_cons_zero (item : α) (h : α → Nat)
    (rest : List (α → Nat)) (bs : BitSet) (hF : F = 0) :
    insertHashes F item (h :: rest) bs = none := by
  simp [insertHashes, hF]

theorem insertHashes_cons_none (item : α) (h : α → Nat)
    (rest : List (α → Nat)) (bs : BitSet) (hF : F ≠ 0)
    (hset : bs.set (hashIndex F h item) true = none) :
    insertHashes F item (h :: rest) bs = none := by
  simp only [insertHashes, if_neg hF]
  rw [hset]

theorem insertHashes_cons_some (item : α) (h : α → Nat)
    (rest : List (α → Nat)) (bs bs2 : BitSet) (hF : F ≠ 0)
    (hset : bs.set (hashIndex F h item) true = some bs2) :
    insertHashes F item (h :: rest) bs = insertHashes F item rest bs2 := by
  simp only [insertHashes, if_neg hF]
  rw [hset]

theorem insertHashes_F_ne_zero (item : α) (h : α → Nat)
    (rest : List (α → Nat)) (bs bs' : BitSet)
    (hrun : insertHashes F item (h :: rest) bs = some bs') : F ≠ 0 := by
  intro hF
  rw [insertHashes_cons_zero item h rest bs hF] at hrun
  exact Option.noConfusion hrun

theorem insertHashes_monotone (item : α) (hs : List (α → Nat))
    (bs bs' : BitSet) (j : Nat)
    (hrun : insertHashes F item hs bs = some bs')
    (hj : bs.get j = some true) : bs'.get j = some true := by
  induction hs generalizing bs with
  | nil => cases hrun; exact hj
  | cons h rest ih =>
    have hF : F ≠ 0 := insertHashes_F_ne_zero item h rest bs bs' hrun
    cases hset : bs.set (hashIndex F h item) true with
    | none =>
      rw [insertHashes_cons_none item h rest bs hF hset] at hrun
      exact Option.noConfusion hrun
    | some bs2 =>
      rw [insertHashes_cons_some item h rest bs bs2 hF hset] at hrun
      exact ih bs2 hrun (BitSet.get_true_of_set_true bs bs2 _ j hset hj)

theorem insertHashes_sets (item : α) (hs : List (α → Nat)) (bs bs' : BitSet)
    (hrun : insertHashes F item hs bs = some bs') :
    ∀ h ∈ hs, bs'.get (hashIndex F h item) = some true := by
  induction hs generalizing bs with
  | nil =>
    intro h hh
    cases hh
  | cons h0 rest ih =>
    have hF : F ≠ 0 := insertHashes_F_ne_zero item h0 rest bs bs' hrun
    cases hset : bs.set (hashIndex F h0 item) true with
    | none =>
      rw [insertHashes_cons_none item h0 rest bs hF hset] at hrun
      exact Option.noConfusion hrun
    | some bs2 =>
      rw [insertHashes_cons_some item h0 rest bs bs2 hF hset] at hrun
      intro h hh
      rcases List.mem_cons.mp hh with rfl | hmem
      · exact insertHashes_monotone item rest bs2 bs' _ hrun
          (BitSet.get_set_self bs bs2 _ true hset)
      · exact ih bs2 hrun h hmem

theorem insertHashes_length (item : α) (hs : List (α → Nat)) (bs bs' : BitSet)
    (hrun : insertHashes F item hs bs = some bs') :
    bs'.bits.length = bs.bits.length := by
  induction hs generalizing bs with
  | nil =>
    cases hrun
    rfl
  | cons h rest ih =>
    have hF : F ≠ 0 := insertHashes_F_ne_zero item h rest bs bs' hrun
    cases hset : bs.set (hashIndex F h item) true with
    | none =>
      rw [insertHashes_cons_none item h rest bs hF hset] at hrun
      exact Option.noConfusion hrun
    | some bs2 =>
      rw [insertHashes_cons_some item h rest bs bs2 hF hset] at hrun
      rw [ih bs2 hrun, BitSet.length_of_set bs bs2 _ true hset]

theorem insertHashes_total (item : α) (hs : List (α → Nat)) (bs : BitSet)
    (hF : F ≠ 0) (hlen : (F - 1) / 8 < bs.bits.length) :
    ∃ bs', insertHashes F item hs bs = some bs' := by
  induction hs generalizing bs with
  | nil => exact ⟨bs, rfl⟩
  | cons h rest ih =>
    have hidx : hashIndex F h item / 8 < bs.bits.length :=
      hashIndex_div_lt hF h item bs hlen
    cases hset : bs.set (hashIndex F h item) true with
    | none =>
      rw [BitSet.set_eq_none_iff] at hset
      omega
    | some bs2 =>
      have hlen2 : (F - 1) / 8 < bs2.bits.length := by
        rw [BitSet.length_of_set bs bs2 _ true hset]
        exact hlen
      obtain ⟨bs', hbs'⟩ := ih bs2 hlen2
      exact ⟨bs', by rw [insertHashes_cons_some item h rest bs bs2 hF hset,
        hbs']⟩

theorem insertHashes_frame (item : α) (hs : List (α → Nat)) (bs bs' : BitSet)
    (j : Nat) (hrun : insertHashes F item hs bs = some bs')
    (hj : ∀ h ∈ hs, j ≠ hashIndex F h item) : bs'.get j = bs.get j := by
  induction hs generalizing bs with
  | nil =>
    cases hrun
    rfl
  | cons h rest ih =>
    have hF : F ≠ 0 := insertHashes_F_ne_zero item h rest bs bs' hrun
    cases hset : bs.set (hashIndex F h item) true with
    | none =>
      rw [insertHashes_cons_none item h rest bs hF hset] at hrun
      exact Option.noConfusion hrun
    | some bs2 =>
      rw [insertHashes_cons_some item h rest bs bs2 hF hset] at hrun
      rw [ih bs2 hrun (fun h' hm => hj h' (List.mem_cons_of_mem h hm))]
      exact BitSet.get_set_ne bs bs2 _ j true hset
        (hj h (List.mem_cons_self h rest))

theorem insertHashes_no_op (item : α) (hs : List (α → Nat)) (bs : BitSet)
    (hF : F ≠ 0) (hall : ∀ h ∈ hs, bs.get (hashIndex F h item) = some true) :
    insertHashes F item hs bs = some bs := by
  induction hs with
  | nil => rfl
  | cons h rest ih =>
    have hset : bs.set (hashIndex F h item) true = some bs :=
      BitSet.set_true_of_get_true bs _ (hall h (List.mem_cons_self h rest))
    rw [insertHashes_cons_some item h rest bs bs hF hset]
    exact ih (fun h' hm => hall h' (List.mem_cons_of_mem h hm))

theorem containsHashes_cons_zero (item : α) (h : α → Nat)
    (rest : List (α → Nat)) (bs : BitSet) (hF : F = 0) :
    containsHashes F item (h :: rest) bs = none := by
  simp [containsHashes, hF]

theorem containsHashes_cons_none (item : α) (h : α → Nat)
    (rest : List (α → Nat)) (bs : BitSet) (hF : F ≠ 0)
    (hg : bs.get (hashIndex F h item) = none) :
    containsHashes F item (h :: rest) bs = none := by
  simp only [containsHashes, if_neg hF]
  rw [hg]

theorem containsHashes_cons_true (item : α) (h : α → Nat)
    (rest : List (α → Nat)) (bs : BitSet) (hF : F ≠ 0)
    (hg : bs.get (hashIndex F h item) = some true) :
    containsHashes F item (h :: rest) bs = containsHashes F item rest bs := by
  simp only [containsHashes, if_neg hF]
  rw [hg]
  rfl

theorem containsHashes_cons_false (item : α) (h : α → Nat)
    (rest : List (α → Nat)) (bs : BitSet) (hF : F ≠ 0)
    (hg : bs.get (hashIndex F h item) = some false) :
    containsHashes F item (h :: rest) bs = some false := by
  simp only [containsHashes, if_neg hF]
  rw [hg]
  rfl

theorem containsHashes_eq_true_iff (item : α) (hs : List (α → Nat))
    (bs : BitSet) (hF : F ≠ 0) :
    containsHashes F item hs bs = some true ↔
      ∀ h ∈ hs, bs.get (hashIndex F h item) = some true := by
  induction hs with
  | nil => simp [containsHashes]
  | cons h rest ih =>
    cases hg : bs.get (hashIndex F h item) with
    | none =>
      rw [containsHashes_cons_none item h rest bs hF hg]
      constructor
      · intro hc
        exact Option.noConfusion hc
      · intro hall
        have hx := hall h (List.mem_cons_self h rest)
        rw [hg] at hx
        exact Option.noConfusion hx
    | some b =>
      cases b with
      | false =>
        rw [containsHashes_cons_false item h rest bs hF hg]
        constructor
        · intro hc
          exact absurd (Option.some.inj hc) (by simp)
        · intro hall
          have hx := hall h (List.mem_cons_self h rest)
          rw [hg] at hx
          exact absurd (Option.some.inj hx) (by simp)
      | true =>
        rw [containsHashes_cons_true item h rest bs hF hg]
        rw [ih]
        constructor
        · intro hall h' hm
          rcases List.mem_cons.mp hm with rfl | hm'
          · exact hg
          · exact hall h' hm'
        · intro hall h' hm
          exact hall h' (List.mem_cons_of_mem h hm)

theorem containsHashes_ne_none (item : α) (hs : List (α → Nat)) (bs : BitSet)
    (hF : F ≠ 0) (hlen : (F - 1) / 8 < bs.bits.length) :
    containsHashes F item hs bs ≠ none := by
  induction hs with
  | nil => simp [containsHashes]
  | cons h rest ih =>
    have hidx : hashIndex F h item / 8 < bs.bits.length :=
      hashIndex_div_lt hF h item bs hlen
    cases hg : bs.get (hashIndex F h item) with
    | none =>
      rw [BitSet.get_eq_none_iff] at hg
      omega
    | some b =>
      cases b with
      | false =>
        rw [containsHashes_cons_false item h rest bs hF hg]
        simp
      | true =>
        rw [containsHashes_cons_true item h rest bs hF hg]
        exact ih

/-! ### Lemmas about `BloomFilter.insert` and `insertAll` -/

theorem BloomFilter.insert_eq_some (bf bf' : BloomFilter α F) (item : α)
    (h : bf.insert item = some bf') :
    insertHashes F item bf.hashers bf.filter = some bf'.filter ∧
      bf'.hashers = bf.hashers := by
  unfold BloomFilter.insert at h
  cases hrun : insertHashes F item bf.hashers bf.filter with
  | none =>
    rw [hrun] at h
    exact Option.noConfusion h
  | some bs =>
    rw [hrun] at h
    have h2 : some (⟨bf.hashers, bs⟩ : BloomFilter α F) = some bf' := h
    cases h2
    exact ⟨rfl, rfl⟩

theorem BloomFilter.insert_of_run (bf : BloomFilter α F) (item : α)
    (bs : BitSet) (hrun : insertHashes F item bf.hashers bf.filter = some bs) :
    bf.insert item = some ⟨bf.hashers, bs⟩ := by
  unfold BloomFilter.insert
  rw [hrun]

theorem insertAll_spec (bf bf' : BloomFilter α F) (ys : List α)
    (h : insertAll bf ys = some bf') :
    bf'.hashers = bf.hashers ∧
      (∀ j, bf.filter.get j = some true → bf'.filter.get j = some true) ∧
      bf'.filter.bits.length = bf.filter.bits.length := by
  induction ys generalizing bf with
  | nil =>
    cases h
    exact ⟨rfl, fun j hj => hj, rfl⟩
  | cons y ys ih =>
    cases hins : bf.insert y with
    | none =>
      rw [insertAll, hins] at h
      exact Option.noConfusion h
    | some bf1 =>
      rw [insertAll, hins] at h
      have h' : insertAll bf1 ys = some bf' := h
      obtain ⟨hrun, hh1⟩ := BloomFilter.insert_eq_some bf bf1 y hins
      obtain ⟨hh2, hmono, hlen⟩ := ih bf1 h'
      refine ⟨hh2.trans hh1, ?_, ?_⟩
      · intro j hj
        exact hmono j (insertHashes_monotone y bf.hashers bf.filter
          bf1.filter j hrun hj)
      · rw [hlen, insertHashes_length y bf.hashers bf.filter bf1.filter hrun]

theorem insertAll_total (ys : List α) (bf : BloomFilter α F) (hF : F ≠ 0)
    (hlen : (F - 1) / 8 < bf.filter.bits.length) :
    ∃ bf', insertAll bf ys = some bf' ∧
      bf'.filter.bits.length = bf.filter.bits.length := by
  induction ys generalizing bf with
  | nil => exact ⟨bf, rfl, rfl⟩
  | cons y ys ih =>
    obtain ⟨bs, hbs⟩ := insertHashes_total y bf.hashers bf.filter hF hlen
    have hins := BloomFilter.insert_of_run bf y bs hbs
    have hlen1 : bs.bits.length = bf.filter.bits.length :=
      insertHashes_length y bf.hashers bf.filter bs hbs
    obtain ⟨bf', hbf', hlen'⟩ :=
      ih (⟨bf.hashers, bs⟩ : BloomFilter α F) (by simpa [hlen1] using hlen)
    refine ⟨bf', ?_, ?_⟩
    · rw [insertAll, hins]
      exact hbf'
    · rw [hlen']
      exact hlen1

/-! ### Claim theorems -/

/-- C1: no false negatives. For every filter `bf` (any capacity `F`, any
hasher list) and element `x`, after a completed `insert x` the filter
contains `x`, and it still does after any finite sequence of further
completed `insert` calls with arbitrary elements. -/
theorem noFalseNegatives (bf bf1 bf2 : BloomFilter α F) (x : α) (ys : List α)
    (h1 : bf.insert x = some bf1) (h2 : insertAll bf1 ys = some bf2) :
    bf2.contains x = some true := by
  obtain ⟨hrun, hh1⟩ := BloomFilter.insert_eq_some bf bf1 x h1
  obtain ⟨hh2, hmono, hlen2⟩ := insertAll_spec bf1 bf2 ys h2
  have hsets := insertHashes_sets x bf.hashers bf.filter bf1.filter hrun
  have hall : ∀ h ∈ bf.hashers, bf2.filter.get (hashIndex F h x) = some true :=
    fun h hm => hmono _ (hsets h hm)
  unfold BloomFilter.contains
  rw [hh2, hh1]
  cases hcase : bf.hashers with
  | nil => rfl
  | cons h0 rest =>
    have hF : F ≠ 0 := by
      rw [hcase] at hrun
      exact insertHashes_F_ne_zero x h0 rest bf.filter bf1.filter hrun
    rw [containsHashes_eq_true_iff x (h0 :: rest) bf2.filter hF]
    intro h hm
    refine hall h ?_
    rw [hcase]
    exact hm

/-- Witness for C1: over `Nat` with `F = 8` and the identity hasher, insert
`3`, then insert `5`; the resulting filter still contains `3`. -/
theorem noFalseNegatives_witness :
    (BloomFilter.mk [hId] ⟨[40]⟩ : BloomFilter Nat 8).contains 3 =
      some true :=
  noFalseNegatives (BloomFilter.new Nat 8 [hId]) (BloomFilter.mk [hId] ⟨[8]⟩)
    (BloomFilter.mk [hId] ⟨[40]⟩) 3 [5] rfl rfl

/-- C2: membership semantics. For every filter state and item (with `F ≠ 0`,
so that the `% F` reductions are defined), `contains` returns `true` iff for
each hasher the bit at `hash(item) mod F` is set: a conjunction over all `H`
positions. -/
theorem containsSpec (bf : BloomFilter α F) (x : α) (hF : 0 < F) :
    bf.contains x = some true ↔
      ∀ h ∈ bf.hashers, bf.filter.get (hashIndex F h x) = some true :=
  containsHashes_eq_true_iff x bf.hashers bf.filter (Nat.pos_iff_ne_zero.mp hF)

/-- Witness for C2 at `F = 8`, one identity hasher, bit 3 set. -/
theorem containsSpec_witness :
    (BloomFilter.mk [hId] ⟨[8]⟩ : BloomFilter Nat 8).contains 3 = some true :=
  (containsSpec (BloomFilter.mk [hId] ⟨[8]⟩) 3 (by decide)).mpr
    (by
      intro h hm
      rw [List.mem_singleton] at hm
      subst hm
      rfl)

/-- C3: insertion postcondition. After a completed `insert x`, the bit at
`hash(x) mod F` is set for each of the `H` hash functions. -/
theorem insertSetsAllBits (bf bf' : BloomFilter α F) (x : α)
    (h : bf.insert x = some bf') :
    ∀ hf ∈ bf.hashers, bf'.filter.get (hashIndex F hf x) = some true := by
  obtain ⟨hrun, _⟩ := BloomFilter.insert_eq_some bf bf' x h
  exact insertHashes_sets x bf.hashers bf.filter bf'.filter hrun

/-- Witness for C3: inserting `3` at `F = 8` with the identity hasher sets
bit 3. -/
theorem insertSetsAllBits_witness : (BitSet.mk [8]).get 3 = some true :=
  insertSetsAllBits (BloomFilter.new Nat 8 [hId])
    (BloomFilter.mk [hId] ⟨[8]⟩) 3 rfl hId (List.mem_singleton.mpr rfl)

/-- C4 counterexample: the claim quantifies over all parameter choices, but
with `H = 0` hash functions the `all` over an empty iterator is vacuously
true, so a freshly constructed filter reports `true` — not `false` — for
every query. -/
theorem emptyRejects_cex :
    (BloomFilter.new Nat 8 ([] : List (Nat → Nat))).contains 0 =
      some true := rfl

/-- C4 amended: a freshly constructed filter with `F ≥ 1` and at least one
hash function deterministically reports `false` for every element. -/
theorem emptyRejects (hs : List (α → Nat)) (x : α) (hF : 0 < F)
    (hH : hs ≠ []) :
    (BloomFilter.new α F hs).contains x = some false := by
  cases hs with
  | nil => exact absurd rfl hH
  | cons h rest =>
    have hFne : F ≠ 0 := Nat.pos_iff_ne_zero.mp hF
    have hg : (BitSet.new F).get (hashIndex F h x) = some false := by
      have hgt : hashIndex F h x ≤ F - 1 := by
        have := hashIndex_lt hFne h x
        omega
      have hdiv : hashIndex F h x / 8 ≤ (F - 1) / 8 :=
        Nat.div_le_div_right hgt
      rw [BitSet.get_new, if_pos (by omega)]
    exact containsHashes_cons_false x h rest (BitSet.new F) hFne hg

/-- Witness for C4 (amended) at `F = 8`, one identity hasher, query `5`. -/
theorem emptyRejects_witness :
    (BloomFilter.new Nat 8 [hId]).contains 5 = some false :=
  emptyRejects [hId] 5 (by decide) (List.cons_ne_nil hId [])

/-- C5: monotonicity. Across any completed sequence of insertions, every bit
that was `1` before stays `1`; no filter operation resets a set bit
(`contains` does not mutate at all by construction). -/
theorem insertMonotone (bf bf' : BloomFilter α F) (ys : List α) (j : Nat)
    (h : insertAll bf ys = some bf') (hj : bf.filter.get j = some true) :
    bf'.filter.get j = some true :=
  (insertAll_spec bf bf' ys h).2.1 j hj

/-- Witness for C5: bit 3 set, then insert `5`; bit 3 survives. -/
theorem insertMonotone_witness : (BitSet.mk [40]).get 3 = some true :=
  insertMonotone (BloomFilter.mk [hId] ⟨[8]⟩ : BloomFilter Nat 8)
    (BloomFilter.mk [hId] ⟨[40]⟩) [5] 3 rfl rfl

/-- C6 counterexample: the claim says every access at `index ≥ len` panics,
but `BitSet::new(1)` allocates one byte, so `get 1` and `set 1` touch a
padding bit of byte 0 silently instead of panicking. -/
theorem boundsFault_cex :
    (BitSet.new 1).get 1 = some false ∧
      (BitSet.new 1).set 1 true = some ⟨[2]⟩ := by
  decide

/-- C6 amended: for a bit array from `BitSet::new(len)`, `get` and `set`
panic exactly when the index reaches the allocated byte capacity
`8 * ceil(max len 1 / 8)` — indices in `[len, 8 * ceil)` are silent accesses
of padding bits, and larger ones fault via out-of-bounds `Vec` indexing. -/
theorem boundsFault (len i : Nat) (v : Bool) :
    ((BitSet.new len).get i = none ↔ 8 * ((len - 1) / 8 + 1) ≤ i) ∧
      ((BitSet.new len).set i v = none ↔ 8 * ((len - 1) / 8 + 1) ≤ i) := by
  constructor
  · rw [BitSet.get_eq_none_iff, BitSet.length_new]
    omega
  · rw [BitSet.set_eq_none_iff, BitSet.length_new]
    omega

/-- C7: construction contract. `BitSet::new(len)` allocates `ceil(len/8)`
bytes (one byte when `len = 0`), all zeroed, so every index below `len`
initially reads `false`; and any completed `set i v` makes `get i` return
`v`. -/
theorem bitsetNewSpec :
    (∀ len, 0 < len → (BitSet.new len).bits.length = (len + 7) / 8) ∧
      (BitSet.new 0).bits.length = 1 ∧
      (∀ len i, i < len → (BitSet.new len).get i = some false) ∧
      (∀ (bs bs' : BitSet) (i : Nat) (v : Bool),
        bs.set i v = some bs' → bs'.get i = some v) := by
  refine ⟨?_, ?_, ?_, ?_⟩
  · intro len hlen
    rw [BitSet.length_new]
    omega
  · rfl
  · intro len i hi
    rw [BitSet.get_new, if_pos (by omega)]
  · intro bs bs' i v hset
    exact BitSet.get_set_self bs bs' i v hset

/-- Witness for C7 at `len = 10`, `i = 3`, `v = true`. -/
theorem bitsetNewSpec_witness :
    (BitSet.new 10).bits.length = (10 + 7) / 8 ∧
      (BitSet.new 10).get 3 = some false ∧
      (BitSet.mk [8, 0]).get 3 = some true :=
  ⟨bitsetNewSpec.1 10 (by decide),
    bitsetNewSpec.2.2.1 10 3 (by decide),
    bitsetNewSpec.2.2.2 (BitSet.new 10) ⟨[8, 0]⟩ 3 true (by decide)⟩

/-- C8: idempotence of insertion. Inserting `x` again right after a completed
`insert x` returns the very same filter (same bit array, same hashers), so
every later `contains` answer is unchanged. -/
theorem insertIdempotent (bf bf' : BloomFilter α F) (x : α)
    (h : bf.insert x = some bf') : bf'.insert x = some bf' := by
  obtain ⟨hrun, hh⟩ := BloomFilter.insert_eq_some bf bf' x h
  have hall := insertHashes_sets x bf.hashers bf.filter bf'.filter hrun
  have hnoop : insertHashes F x bf'.hashers bf'.filter = some bf'.filter := by
    rw [hh]
    cases hcase : bf.hashers with
    | nil => rfl
    | cons h0 rest =>
      have hF : F ≠ 0 := by
        rw [hcase] at hrun
        exact insertHashes_F_ne_zero x h0 rest bf.filter bf'.filter hrun
      refine insertHashes_no_op x (h0 :: rest) bf'.filter hF ?_
      intro hf hm
      refine hall hf ?_
      rw [hcase]
      exact hm
  unfold BloomFilter.insert
  rw [hnoop]

/-- Witness for C8: re-inserting `3` leaves the filter `[8]` unchanged. -/
theorem insertIdempotent_witness :
    (BloomFilter.mk [hId] ⟨[8]⟩ : BloomFilter Nat 8).insert 3 =
      some (BloomFilter.mk [hId] ⟨[8]⟩) :=
  insertIdempotent (BloomFilter.new Nat 8 [hId])
    (BloomFilter.mk [hId] ⟨[8]⟩) 3 rfl

/-- C9 counterexample: the claim quantifies over any `F`, but with `F = 0`
and one hasher both `insert` and `contains` panic on `hash as usize % 0`
(remainder by zero), even though `new()` itself succeeds. -/
theorem neverPanics_cex :
    (BloomFilter.new Nat 0 [hId]).insert 0 = none ∧
      (BloomFilter.new Nat 0 [hId]).contains 0 = none :=
  ⟨rfl, rfl⟩

/-- C9 amended: for every `F ≥ 1` and any hashers, starting from `new()`,
any sequence of `insert`s followed by an `insert` or a `contains` never
panics: every computed bit index `hash mod F` stays inside the allocated
array. -/
theorem neverPanics (hs : List (α → Nat)) (ys : List α) (x : α) (hF : 0 < F) :
    ((insertAll (BloomFilter.new α F hs) ys).bind
        (fun bf => bf.insert x)) ≠ none ∧
      ((insertAll (BloomFilter.new α F hs) ys).bind
        (fun bf => bf.contains x)) ≠ none := by
  have hFne : F ≠ 0 := Nat.pos_iff_ne_zero.mp hF
  have hlen : (F - 1) / 8 < (BloomFilter.new α F hs).filter.bits.length := by
    rw [show (BloomFilter.new α F hs).filter = BitSet.new F from rfl,
      BitSet.length_new]
    omega
  obtain ⟨bf', hbf', hlen'⟩ := insertAll_total ys (BloomFilter.new α F hs)
    hFne hlen
  rw [hbf']
  have hlen2 : (F - 1) / 8 < bf'.filter.bits.length := by
    rw [hlen']
    exact hlen
  constructor
  · show bf'.insert x ≠ none
    obtain ⟨bs, hbs⟩ := insertHashes_total x bf'.hashers bf'.filter hFne hlen2
    rw [BloomFilter.insert_of_run bf' x bs hbs]
    exact Option.noConfusion
  · show bf'.contains x ≠ none
    exact containsHashes_ne_none x bf'.hashers bf'.filter hFne hlen2

/-- Witness for C9 (amended) at `F = 8`, inserts `[1, 2]`, then query `3`. -/
theorem neverPanics_witness :
    ((insertAll (BloomFilter.new Nat 8 [hId]) [1, 2]).bind
        (fun bf => bf.insert 3)) ≠ none ∧
      ((insertAll (BloomFilter.new Nat 8 [hId]) [1, 2]).bind
        (fun bf => bf.contains 3)) ≠ none :=
  neverPanics [hId] [1, 2] 3 (by decide)

/-- C10: frame of insertion. A completed `insert x` keeps the hasher list
and the byte length of the bit array, and every bit outside the `H` computed
positions `hash_i(x) mod F` keeps its previous value. -/
theorem insertFrame (bf bf' : BloomFilter α F) (x : α) (j : Nat)
    (h : bf.insert x = some bf') :
    bf'.hashers = bf.hashers ∧
      bf'.filter.bits.length = bf.filter.bits.length ∧
      ((∀ hf ∈ bf.hashers, j ≠ hashIndex F hf x) →
        bf'.filter.get j = bf.filter.get j) := by
  obtain ⟨hrun, hh⟩ := BloomFilter.insert_eq_some bf bf' x h
  exact ⟨hh, insertHashes_length x bf.hashers bf.filter bf'.filter hrun,
    fun hj => insertHashes_frame x bf.hashers bf.filter bf'.filter j hrun hj⟩

/-- Witness for C10: inserting `3` at `F = 8` leaves bit 5 as it was. -/
theorem insertFrame_witness :
    (BitSet.mk [8]).get 5 = (BitSet.new 8).get 5 :=
  (insertFrame (BloomFilter.new Nat 8 [hId]) (BloomFilter.mk [hId] ⟨[8]⟩)
      3 5 rfl).2.2
    (by
      intro hf hm
      have hm' : hf ∈ [hId] := hm
      rw [List.mem_singleton] at hm'
      subst hm'
      decide)

end BloomSpec
